import Mathlib

/-!
Shallow embedding of the genetic-algorithm core of the AI-FP repository
(traffic-signal optimization), covering `src/config.py`, `src/mutation.py`,
`src/crossover.py` and `src/genetic_algorithm.py`.

Genomes are lists of integers.  Randomness is made explicit: every call that
Python serves from the global `random` module takes the drawn values as an
extra argument (streams `ℕ → _`), so each Python function becomes a pure Lean
function of its inputs and its random draws.  Floats are modelled as `ℚ`:
every arithmetic expression in the code is translated with the same operation
tree, so the structural claims carry over.
-/

/-- A genome: an ordered sequence of (integer) green-phase durations. -/
abbrev Genome := List ℤ

namespace Config

/-- `Config.POPULATION = 20` (src/config.py line 3). -/
def POPULATION : ℕ := 20

/-- `Config.GENERATIONS = 25` (src/config.py line 4). -/
def GENERATIONS : ℕ := 25

/-- `Config.TOURNAMENT_SIZE = 3` (src/config.py line 5). -/
def TOURNAMENT_SIZE : ℕ := 3

/-- `Config.SELECT_COUNT = POPULATION` (src/config.py line 6). -/
def SELECT_COUNT : ℕ := POPULATION

/-- `Config.MUTATION_RATE = 0.5` (src/config.py line 7). -/
def MUTATION_RATE : ℚ := 1/2

/-- `Config.MUTATION_SIGMA = 4.0` (src/config.py line 8). -/
def MUTATION_SIGMA : ℚ := 4

/-- `Config.MUTATION_DECAY = 0.99` (src/config.py line 9). -/
def MUTATION_DECAY : ℚ := 99/100

/-- `Config.MIN_MUTATION_RATE = 0.2` (src/config.py line 10). -/
def MIN_MUTATION_RATE : ℚ := 1/5

/-- `Config.NUM_SIGNALS = 4` (src/config.py line 13). -/
def NUM_SIGNALS : ℕ := 4

/-- `Config.MIN_GREEN = 10` (src/config.py line 14). -/
def MIN_GREEN : ℤ := 10

/-- `Config.MAX_GREEN = 60` (src/config.py line 15). -/
def MAX_GREEN : ℤ := 60

/-- `Config.INIT_VARIATION_MIN = 0.5` (src/config.py line 18). -/
def INIT_VARIATION_MIN : ℚ := 1/2

/-- `Config.INIT_VARIATION_MAX = 1.5` (src/config.py line 19). -/
def INIT_VARIATION_MAX : ℚ := 3/2

/-- `Config.MAX_INIT_ATTEMPTS = 1000` (src/config.py line 20). -/
def MAX_INIT_ATTEMPTS : ℕ := 1000

end Config

/-- Python `max(lo, min(hi, v))`, the clamping idiom used throughout the code. -/
def pyClamp (lo hi v : ℤ) : ℤ := max lo (min hi v)

/-- Python `int(q)` on a float: truncation toward zero. -/
def pyInt (q : ℚ) : ℤ := if 0 ≤ q then ⌊q⌋ else ⌈q⌉

/-- Python `random.randint(lo, hi)`: a uniform integer in `[lo, hi]` inclusive.
The raw draw `u : ℕ` is reduced modulo the size of the range, so the result
is in `[lo, hi]` whenever `lo ≤ hi`, exactly the contract of `randint`. -/
def pyRandint (lo hi : ℤ) (u : ℕ) : ℤ := lo + (u % (hi - lo + 1).toNat : ℕ)

theorem pyRandint_mem (lo hi : ℤ) (u : ℕ) (h : lo ≤ hi) :
    lo ≤ pyRandint lo hi u ∧ pyRandint lo hi u ≤ hi := by
  unfold pyRandint
  have hpos : (0:ℤ) < hi - lo + 1 := by omega
  have hlt : (u % (hi - lo + 1).toNat) < (hi - lo + 1).toNat :=
    Nat.mod_lt _ (by omega)
  constructor
  · have : (0:ℤ) ≤ ((u % (hi - lo + 1).toNat : ℕ) : ℤ) := Int.natCast_nonneg _
    omega
  · have : ((u % (hi - lo + 1).toNat : ℕ) : ℤ) < ((hi - lo + 1).toNat : ℤ) := by
      exact_mod_cast hlt
    omega

namespace Mutation

/-- `Mutation.gaussian_mutate` (src/mutation.py lines 6-16).  For each element
`value` of `gene`: with the uniform draw `(r i).1` (Python `random.random()`)
below `mutation_rate`, the element becomes
`max(10, min(30, int(value + gauss)))` where `gauss = (r i).2` models the
`random.gauss(0, sigma)` draw; otherwise the element is copied unchanged.
Note the bounds 10 and 30 are hardcoded in the source, and `int()` truncates
the sum `value + gauss` toward zero.  `sigma` only parameterizes the Gaussian
draw's distribution and does not otherwise enter the computation. -/
def gaussian_mutate (gene : Genome) (mutation_rate : ℚ) (r : ℕ → ℚ × ℚ)
    (sigma : ℚ := 5) : Genome :=
  gene.mapIdx (fun i (value : ℤ) =>
    if (r i).1 < mutation_rate then
      pyClamp 10 30 (pyInt ((value : ℚ) + (r i).2))
    else value)

end Mutation

namespace Crossover

/-- The deterministic body of `Crossover.single_point` (src/crossover.py
lines 10-13) at a fixed cut `point`:
`child1 = parent1[:point] + parent2[point:]` and
`child2 = parent2[:point] + parent1[point:]`. -/
def single_point_at (parent1 parent2 : Genome) (point : ℕ) : Genome × Genome :=
  (parent1.take point ++ parent2.drop point,
   parent2.take point ++ parent1.drop point)

/-- `Crossover.single_point` (src/crossover.py lines 7-13): the cut point is
`random.randint(1, len(parent1) - 1)`, modelled by reducing the raw draw `u`
into the range `[1, len(parent1) - 1]` (which has `len(parent1) - 1`
values). -/
def single_point (parent1 parent2 : Genome) (u : ℕ) : Genome × Genome :=
  single_point_at parent1 parent2 (1 + u % (parent1.length - 1))

/-- `Crossover.uniform` (src/crossover.py lines 29-41): Python `zip` iterates
to the shorter parent; at position `i`, the draw `r i` (Python
`random.random()`) below `0.5` keeps the elements unswapped, else swaps. -/
def uniform (parent1 parent2 : Genome) (r : ℕ → ℚ) : Genome × Genome :=
  ((parent1.zip parent2).mapIdx (fun i p => if r i < 1/2 then p.1 else p.2),
   (parent1.zip parent2).mapIdx (fun i p => if r i < 1/2 then p.2 else p.1))

end Crossover

/-- Python `min(l)` for a nonempty list `x :: xs` (CPython keeps the current
value on ties, so the first minimal element wins); total with junk value `0`
on `[]`, where Python raises. -/
def pyListMin : List ℚ → ℚ
  | [] => 0
  | x :: xs => xs.foldl (fun m y => if y < m then y else m) x

namespace GA

/-- One candidate genome of the duplicate-avoidance loop of
`GA.create_initial_population` (src/genetic_algorithm.py lines 28-33): each
base duration is multiplied by a drawn variation factor `v i` (Python
`random.uniform(INIT_VARIATION_MIN, INIT_VARIATION_MAX)`), truncated by
`int()`, and clamped to `[MIN_GREEN, MAX_GREEN]`. -/
def variation_gene (base : Genome) (v : ℕ → ℚ) : Genome :=
  base.mapIdx (fun i (base_duration : ℤ) =>
    pyClamp Config.MIN_GREEN Config.MAX_GREEN (pyInt ((base_duration : ℚ) * v i)))

/-- The duplicate-avoidance `while` loop of `GA.create_initial_population`
(src/genetic_algorithm.py lines 26-40), with the attempt budget as fuel
(`attempts < c.MAX_INIT_ATTEMPTS`): while the population is short of
`POPULATION` and fuel remains, draw a variation candidate; append it unless
it duplicates an already generated genome. -/
def init_attempts (base : Genome) (var : ℕ → ℕ → ℚ) :
    ℕ → List Genome → List Genome → List Genome
  | 0, population, _ => population
  | fuel + 1, population, generated =>
    if population.length < Config.POPULATION then
      let gene := variation_gene base (var fuel)
      if gene ∈ generated then
        init_attempts base var fuel population generated
      else
        init_attempts base var fuel (population ++ [gene]) (generated ++ [gene])
    else population

/-- One genome of the random-fill fallback (src/genetic_algorithm.py line 44):
`[random.randint(c.MIN_GREEN, c.MAX_GREEN) for _ in range(c.NUM_SIGNALS)]`. -/
def random_gene (u : ℕ → ℕ) : Genome :=
  (List.range Config.NUM_SIGNALS).map
    (fun i => pyRandint Config.MIN_GREEN Config.MAX_GREEN (u i))

/-- The random-fill `while` loop of `GA.create_initial_population`
(src/genetic_algorithm.py lines 43-45).  Each iteration appends one random
genome while the population is short of `POPULATION`; the loop runs at most
`POPULATION` times, which the wrapper supplies as fuel. -/
def fill_random (u : ℕ → ℕ → ℕ) : ℕ → List Genome → List Genome
  | 0, population => population
  | fuel + 1, population =>
    if population.length < Config.POPULATION then
      fill_random u fuel (population ++ [random_gene (u fuel)])
    else population

/-- `GA.create_initial_population` (src/genetic_algorithm.py lines 19-47):
start from `[base_gene]`, run the duplicate-avoidance loop for up to
`MAX_INIT_ATTEMPTS` attempts, then fill the remaining slots with random
genomes.  `var` supplies the per-attempt, per-position variation draws and
`u` the per-slot, per-position `randint` draws. -/
def create_initial_population (base_gene : Genome) (var : ℕ → ℕ → ℚ)
    (u : ℕ → ℕ → ℕ) : List Genome :=
  fill_random u Config.POPULATION
    (init_attempts base_gene var Config.MAX_INIT_ATTEMPTS [base_gene] [base_gene])

/-- The body of one tournament draw in `GA.tournament_selection`
(src/genetic_algorithm.py lines 54-57).  `tournament` is the list returned by
`random.sample(range(len(fitnesses)), c.TOURNAMENT_SIZE)`;
`tournament_fitness = [fitnesses[i] for i in tournament_indices]` and the
winner is `tournament_indices[tournament_fitness.index(min(...))]`. -/
def tournament_winner (fitnesses : List ℚ) (tournament : List ℕ) : ℕ :=
  let tf := tournament.map (fun i => fitnesses.getD i 0)
  tournament.getD (tf.indexOf (pyListMin tf)) 0

/-- `GA.tournament_selection` (src/genetic_algorithm.py lines 49-59): for each
of `SELECT_COUNT` draws, the sample `draws k` (the `random.sample` result)
decides one winner. -/
def tournament_selection (fitnesses : List ℚ) (draws : ℕ → List ℕ) : List ℕ :=
  (List.range Config.SELECT_COUNT).map (fun k => tournament_winner fitnesses (draws k))

/-- The mutation rate `run_ga` passes to both `gaussian_mutate` calls of every
generation (src/genetic_algorithm.py lines 149-150): the constant
`c.MUTATION_RATE`, with no dependence on the generation index. -/
def run_ga_mutation_rate (_generation : ℕ) : ℚ := Config.MUTATION_RATE

/-- The decayed mutation rate computed in `run_ga_parallel_with_stats`
(src/genetic_algorithm.py lines 328-329):
`curr = base * decay ** generation; curr = max(min_rate, curr)`. -/
def curr_mutation_rate (base decay min_rate : ℚ) (generation : ℕ) : ℚ :=
  max min_rate (base * decay ^ generation)

/-- The rate `run_ga_parallel_with_stats` passes to both `gaussian_mutate`
calls of generation `g`, instantiated at the configured constants
(src/genetic_algorithm.py lines 328-332). -/
def stats_mutation_rate (generation : ℕ) : ℚ :=
  curr_mutation_rate Config.MUTATION_RATE Config.MUTATION_DECAY
    Config.MIN_MUTATION_RATE generation

/-- The breeding loop shared by `run_ga`, `run_ga_parallel` and
`run_ga_parallel_with_stats` (src/genetic_algorithm.py lines 142-152):
`for i in range(0, n - 1, 2)` runs `n / 2` iterations (`n` is
`c.POPULATION`); iteration `j` crosses the parents at the selected indices
`2j` and `2j+1` with `Crossover.single_point` and mutates both children with
`Mutation.gaussian_mutate` at the generation's rate.  `cutu j` is the cut
draw of pair `j` and `mr k` the mutation draws of child `k`.  Out-of-range
indexing (impossible in a run, where `selected` has length
`SELECT_COUNT = POPULATION` and indexes the population) is totalized with
defaults. -/
def breed_children (n : ℕ) (population : List Genome) (selected : List ℕ)
    (rate sigma : ℚ) (cutu : ℕ → ℕ) (mr : ℕ → ℕ → ℚ × ℚ) : List Genome :=
  (List.range (n / 2)).flatMap (fun j =>
    let parent1 := population.getD (selected.getD (2 * j) 0) []
    let parent2 := population.getD (selected.getD (2 * j + 1) 0) []
    let cs := Crossover.single_point parent1 parent2 (cutu j)
    [Mutation.gaussian_mutate cs.1 rate (mr (2 * j)) sigma,
     Mutation.gaussian_mutate cs.2 rate (mr (2 * j + 1)) sigma])

/-- One generation's transition to the committed next population
(src/genetic_algorithm.py lines 141-163): breed `2 * (n / 2)` children; for
odd `n` append the final selected parent `population[selected_indices[-1]]`
unmutated; overwrite slot 0 with (a copy of) the generation's best genome
(elitism); shuffle.  `random.shuffle` is modelled by the permutation oracle
`shuffle`, constrained to a permutation in the theorems. -/
def next_generation (n : ℕ) (population : List Genome) (selected : List ℕ)
    (gen_best_genes : Genome) (rate sigma : ℚ) (cutu : ℕ → ℕ)
    (mr : ℕ → ℕ → ℚ × ℚ) (shuffle : List Genome → List Genome) : List Genome :=
  let bred := breed_children n population selected rate sigma cutu mr
  let children := bred ++
    (if n % 2 = 1 then [population.getD (selected.getLastD 0) []] else [])
  shuffle (children.set 0 gen_best_genes)

/-- The generation transition as `run_ga` performs it (src/genetic_algorithm.py
lines 141-163): population size `c.POPULATION`, mutation rate the constant
`c.MUTATION_RATE` regardless of the generation, and `gaussian_mutate`'s default
`sigma = 5.0` (no `sigma` argument is passed at lines 149-150). -/
def run_ga_next_generation (population : List Genome) (selected : List ℕ)
    (gen_best_genes : Genome) (generation : ℕ) (cutu : ℕ → ℕ)
    (mr : ℕ → ℕ → ℚ × ℚ) (shuffle : List Genome → List Genome) : List Genome :=
  next_generation Config.POPULATION population selected gen_best_genes
    (run_ga_mutation_rate generation) 5 cutu mr shuffle

/-- The generation transition as `run_ga_parallel_with_stats` performs it
(src/genetic_algorithm.py lines 316-345): the decayed rate of the generation
and `sigma = c.MUTATION_SIGMA`. -/
def stats_next_generation (population : List Genome) (selected : List ℕ)
    (gen_best_genes : Genome) (generation : ℕ) (cutu : ℕ → ℕ)
    (mr : ℕ → ℕ → ℚ × ℚ) (shuffle : List Genome → List Genome) : List Genome :=
  next_generation Config.POPULATION population selected gen_best_genes
    (stats_mutation_rate generation) Config.MUTATION_SIGMA cutu mr shuffle

/-- The overall-best update of the generation loop (src/genetic_algorithm.py
lines 85-86 and 134-136): `best_fitness` starts at `float('inf')` (`⊤`) and
each generation's best fitness replaces it exactly when strictly smaller. -/
def track_best (gen_best_fitnesses : List ℚ) : WithTop ℚ :=
  gen_best_fitnesses.foldl
    (fun (best : WithTop ℚ) (g : ℚ) =>
      if (g : WithTop ℚ) < best then (g : WithTop ℚ) else best) ⊤

/-- The overall best-ever fitness the engine tracks after generation `g`, for
the run whose per-generation best fitnesses are `gen_best_fitnesses`. -/
def overall_best_fitness (gen_best_fitnesses : List ℚ) (g : ℕ) : WithTop ℚ :=
  track_best (gen_best_fitnesses.take (g + 1))

end GA

section CrossoverLemmas

theorem cross_take_eq (x y : List ℤ) (k : ℕ) (h : y.length ≤ x.length) :
    (x.take k ++ y.drop k).take k = x.take k := by
  rcases le_or_lt k x.length with hk | hk
  · rw [List.take_append_eq_append_take, List.take_take, min_self]
    have hlen : (x.take k).length = k := by
      simp [List.length_take]; omega
    rw [hlen, Nat.sub_self]
    simp
  · have hy : y.drop k = [] := List.drop_eq_nil_of_le (by omega)
    rw [hy, List.append_nil, List.take_take, min_self]

theorem cross_drop_eq (x y : List ℤ) (k : ℕ) (h : x.length = y.length) :
    (x.take k ++ y.drop k).drop k = y.drop k := by
  rcases le_or_lt k x.length with hk | hk
  · rw [List.drop_append_eq_append_drop]
    have hlen : (x.take k).length = k := by
      simp [List.length_take]; omega
    rw [hlen, Nat.sub_self, List.drop_zero]
    have hnil : (x.take k).drop k = [] := List.drop_eq_nil_of_le (by omega)
    rw [hnil, List.nil_append]
  · have hy : y.drop k = [] := List.drop_eq_nil_of_le (by omega)
    have hx : x.take k = x := List.take_of_length_le (by omega)
    rw [hy, List.append_nil, hx]
    exact List.drop_eq_nil_of_le (by omega)

end CrossoverLemmas

/-- C7: `Crossover.single_point` chooses its cut point in `[1, length-1]`
(first conjunct: the modelled `randint(1, len(parent1)-1)` always lands in
that range), and at any fixed cut point `k` the operation is self-inverse on
equal-length parents: crossing the two children again at `k` recovers
`(parent1, parent2)`.  The children formulas
`child1 = parent1[:k] + parent2[k:]`, `child2 = parent2[:k] + parent1[k:]`
are the definition `Crossover.single_point_at` itself. -/
theorem single_point_cut_range_and_round_trip (p1 p2 : Genome) (u k : ℕ)
    (hlen : p1.length = p2.length) (h2 : 2 ≤ p1.length) :
    (1 ≤ 1 + u % (p1.length - 1) ∧ 1 + u % (p1.length - 1) ≤ p1.length - 1) ∧
    Crossover.single_point_at (Crossover.single_point_at p1 p2 k).1
      (Crossover.single_point_at p1 p2 k).2 k = (p1, p2) := by
  constructor
  · have hmod : u % (p1.length - 1) < p1.length - 1 := Nat.mod_lt _ (by omega)
    omega
  · unfold Crossover.single_point_at
    have t1 : (p1.take k ++ p2.drop k).take k = p1.take k :=
      cross_take_eq p1 p2 k (by omega)
    have t2 : (p2.take k ++ p1.drop k).take k = p2.take k :=
      cross_take_eq p2 p1 k (by omega)
    have d1 : (p1.take k ++ p2.drop k).drop k = p2.drop k :=
      cross_drop_eq p1 p2 k hlen
    have d2 : (p2.take k ++ p1.drop k).drop k = p1.drop k :=
      cross_drop_eq p2 p1 k hlen.symm
    simp only [t1, t2, d1, d2, List.take_append_drop]

/-- Witness for C7 at `parent1 = [15, 20]`, `parent2 = [30, 40]`, raw cut
draw `u = 0`, fixed cut `k = 1`. -/
theorem single_point_cut_range_and_round_trip_witness :
    (([15, 20] : Genome).length = ([30, 40] : Genome).length ∧
      2 ≤ ([15, 20] : Genome).length) ∧
    ((1 ≤ 1 + 0 % (([15, 20] : Genome).length - 1) ∧
        1 + 0 % (([15, 20] : Genome).length - 1) ≤ ([15, 20] : Genome).length - 1) ∧
      Crossover.single_point_at
          (Crossover.single_point_at ([15, 20] : Genome) [30, 40] 1).1
          (Crossover.single_point_at ([15, 20] : Genome) [30, 40] 1).2 1 =
        ([15, 20], [30, 40])) :=
  ⟨⟨by decide, by decide⟩,
    single_point_cut_range_and_round_trip [15, 20] [30, 40] 0 1 (by decide) (by decide)⟩

/-- C9 (counterexample): crossover does not fail on parents of unequal
length.  On `parent1 = [1, 2, 3]`, `parent2 = [4, 5]` with cut draw `u = 0`
(cut point `1 + 0 % 2 = 1`), `Crossover.single_point` returns the pair
`([1, 5], [4, 2, 3])` — children of lengths 2 and 3 — and `Crossover.uniform`
with all coin draws `0` silently truncates to the shorter parent, returning
`([1, 2], [4, 5])`; no error of any kind (no `ShapeMismatch`) exists in
`src/crossover.py`. -/
theorem crossover_unequal_length_returns_children :
    Crossover.single_point ([1, 2, 3] : Genome) [4, 5] 0 = ([1, 5], [4, 2, 3]) ∧
    ([1, 5] : Genome).length ≠ ([1, 2, 3] : Genome).length ∧
    Crossover.uniform ([1, 2, 3] : Genome) [4, 5] (fun _ => 0) = ([1, 2], [4, 5]) := by
  refine ⟨by decide, by decide, ?_⟩
  simp [Crossover.uniform, List.mapIdx, List.mapIdx.go]

/-- C9 (amended): neither `Crossover.single_point` nor `Crossover.uniform`
validates the parents' lengths; both are total and return a pair of children
for any parents.  At a cut `k` within both parents, `single_point` children
have the lengths of the opposite parents, and `uniform` children both have
the length of the shorter parent — so unequal-length parents yield children
without any error being signaled. -/
theorem crossover_no_length_validation (p1 p2 : Genome) (k : ℕ) (r : ℕ → ℚ)
    (h1 : k ≤ p1.length) (h2 : k ≤ p2.length) :
    (Crossover.single_point_at p1 p2 k).1.length = p2.length ∧
    (Crossover.single_point_at p1 p2 k).2.length = p1.length ∧
    (Crossover.uniform p1 p2 r).1.length = min p1.length p2.length ∧
    (Crossover.uniform p1 p2 r).2.length = min p1.length p2.length := by
  unfold Crossover.single_point_at Crossover.uniform
  refine ⟨?_, ?_, ?_, ?_⟩ <;>
    simp [List.length_take, List.length_drop, List.length_zip] <;> omega

/-- Witness for the amended C9 at `p1 = [1, 2, 3]`, `p2 = [4, 5]`, `k = 1`. -/
theorem crossover_no_length_validation_witness :
    (1 ≤ ([1, 2, 3] : Genome).length ∧ 1 ≤ ([4, 5] : Genome).length) ∧
    ((Crossover.single_point_at ([1, 2, 3] : Genome) [4, 5] 1).1.length =
        ([4, 5] : Genome).length ∧
      (Crossover.single_point_at ([1, 2, 3] : Genome) [4, 5] 1).2.length =
        ([1, 2, 3] : Genome).length ∧
      (Crossover.uniform ([1, 2, 3] : Genome) [4, 5] (fun _ => 0)).1.length =
        min ([1, 2, 3] : Genome).length ([4, 5] : Genome).length ∧
      (Crossover.uniform ([1, 2, 3] : Genome) [4, 5] (fun _ => 0)).2.length =
        min ([1, 2, 3] : Genome).length ([4, 5] : Genome).length) :=
  ⟨⟨by decide, by decide⟩,
    crossover_no_length_validation [1, 2, 3] [4, 5] 1 (fun _ => 0)
      (by decide) (by decide)⟩

section BestTracking

theorem track_best_foldl_le (l : List ℚ) : ∀ a : WithTop ℚ,
    l.foldl (fun (best : WithTop ℚ) (g : ℚ) =>
      if (g : WithTop ℚ) < best then (g : WithTop ℚ) else best) a ≤ a := by
  induction l with
  | nil => intro a; simp
  | cons x xs ih =>
      intro a
      simp only [List.foldl_cons]
      refine le_trans (ih _) ?_
      split
      · exact le_of_lt (by assumption)
      · exact le_refl _

end BestTracking

/-- C2: the overall best-ever fitness the engine tracks (initialized to
`float('inf')` and replaced exactly when a generation's best is strictly
smaller, src/genetic_algorithm.py lines 85-86 and 134-136, identically at
lines 259-260 and 283-286) is monotonically non-increasing: after generation
`g ≥ 1` it is at most its value after generation `g - 1`, for any sequence of
per-generation best fitnesses. -/
theorem overall_best_fitness_monotone (gen_bests : List ℚ) (g : ℕ) (hg : 1 ≤ g) :
    GA.overall_best_fitness gen_bests g ≤ GA.overall_best_fitness gen_bests (g - 1) := by
  unfold GA.overall_best_fitness GA.track_best
  have h1 : g - 1 + 1 = g := by omega
  rw [h1, List.take_succ, List.foldl_append]
  exact track_best_foldl_le _ _

/-- Witness for C2 at the run whose generation bests are `[7, 5]`, at
generation `g = 1`. -/
theorem overall_best_fitness_monotone_witness :
    1 ≤ 1 ∧ GA.overall_best_fitness [7, 5] 1 ≤ GA.overall_best_fitness [7, 5] (1 - 1) :=
  ⟨le_refl 1, overall_best_fitness_monotone [7, 5] 1 (le_refl 1)⟩

/-- C8 (counterexample): `run_ga` does not decay the mutation rate.  At
generation 10 it passes the constant `c.MUTATION_RATE = 1/2` to every
mutation call (src/genetic_algorithm.py lines 149-150), which differs from
the claimed `max(MIN_MUTATION_RATE, MUTATION_RATE * MUTATION_DECAY ** 10)`
both at the configured decay `0.99` and at the scenario's decay `0.9`
(where the claimed value is `1/5`). -/
theorem run_ga_mutation_rate_not_decayed :
    GA.run_ga_mutation_rate 10 = 1/2 ∧
    GA.run_ga_mutation_rate 10 ≠
      max Config.MIN_MUTATION_RATE (Config.MUTATION_RATE * Config.MUTATION_DECAY ^ 10) ∧
    GA.run_ga_mutation_rate 10 ≠ max (1/5 : ℚ) (1/2 * (9/10 : ℚ) ^ 10) := by
  refine ⟨rfl, ?_, ?_⟩ <;>
    norm_num [GA.run_ga_mutation_rate, Config.MUTATION_RATE, Config.MUTATION_DECAY,
      Config.MIN_MUTATION_RATE]

/-- C8 (amended): only `run_ga_parallel_with_stats` applies the decaying
mutation rate.  Its rate at generation `g` equals
`max(MIN_MUTATION_RATE, MUTATION_RATE * MUTATION_DECAY ** g)` (recomputed
inside the breeding loop, with the same value for every pair of the
generation), and that one rate is the rate of every `gaussian_mutate` call
of the generation's breeding loop; in the scenario
`MUTATION_RATE = 0.5, MUTATION_DECAY = 0.9, MIN_MUTATION_RATE = 0.2` the
rate at generation 10 is `max(0.2, 0.5 * 0.9 ** 10) = 0.2`.  `run_ga`
instead passes the constant undecayed `c.MUTATION_RATE` at every
generation. -/
theorem stats_mutation_rate_decays (g : ℕ) (n : ℕ) (population : List Genome)
    (selected : List ℕ) (cutu : ℕ → ℕ) (mr : ℕ → ℕ → ℚ × ℚ) (child : Genome)
    (hc : child ∈ GA.breed_children n population selected
      (GA.stats_mutation_rate g) Config.MUTATION_SIGMA cutu mr) :
    GA.stats_mutation_rate g =
      max Config.MIN_MUTATION_RATE (Config.MUTATION_RATE * Config.MUTATION_DECAY ^ g) ∧
    GA.curr_mutation_rate (1/2) (9/10) (1/5) 10 = max (1/5 : ℚ) (1/2 * (9/10 : ℚ) ^ 10) ∧
    GA.curr_mutation_rate (1/2) (9/10) (1/5) 10 = 1/5 ∧
    GA.run_ga_mutation_rate g = Config.MUTATION_RATE ∧
    (∃ c r, child = Mutation.gaussian_mutate c (GA.stats_mutation_rate g) r
      Config.MUTATION_SIGMA) := by
  refine ⟨rfl, rfl, ?_, rfl, ?_⟩
  · norm_num [GA.curr_mutation_rate]
  · rcases List.mem_flatMap.mp hc with ⟨j, -, hj⟩
    rcases List.mem_cons.mp hj with h | hj2
    · exact ⟨_, _, h⟩
    · rcases List.mem_cons.mp hj2 with h | h3
      · exact ⟨_, _, h⟩
      · exact absurd h3 (List.not_mem_nil _)

/-- Witness for C8's amended theorem: generation `g = 0`, a two-slot breeding
loop over an empty population (parent lookups default to `[]`), whose first
child is `[]`. -/
theorem stats_mutation_rate_decays_witness :
    (([] : Genome) ∈ GA.breed_children 2 [] [] (GA.stats_mutation_rate 0)
      Config.MUTATION_SIGMA (fun _ => 0) (fun _ _ => (0, 0))) ∧
    (GA.stats_mutation_rate 0 =
      max Config.MIN_MUTATION_RATE (Config.MUTATION_RATE * Config.MUTATION_DECAY ^ 0) ∧
    GA.curr_mutation_rate (1/2) (9/10) (1/5) 10 = max (1/5 : ℚ) (1/2 * (9/10 : ℚ) ^ 10) ∧
    GA.curr_mutation_rate (1/2) (9/10) (1/5) 10 = 1/5 ∧
    GA.run_ga_mutation_rate 0 = Config.MUTATION_RATE ∧
    (∃ c r, ([] : Genome) = Mutation.gaussian_mutate c (GA.stats_mutation_rate 0) r
      Config.MUTATION_SIGMA)) := by
  have hmem : ([] : Genome) ∈ GA.breed_children 2 [] [] (GA.stats_mutation_rate 0)
      Config.MUTATION_SIGMA (fun _ => 0) (fun _ _ => (0, 0)) := by
    simp [GA.breed_children, Crossover.single_point, Crossover.single_point_at,
      Mutation.gaussian_mutate]
  exact ⟨hmem, stats_mutation_rate_decays 0 2 [] [] (fun _ => 0) (fun _ _ => (0, 0)) [] hmem⟩

section BreedingLemmas

theorem length_flatMap_pairs {α β : Type} (l : List α) (f g : α → β) :
    (l.flatMap (fun a => [f a, g a])).length = 2 * l.length := by
  induction l with
  | nil => simp
  | cons x xs ih =>
      rw [List.flatMap_cons]
      simp only [List.length_append, List.length_cons, List.length_nil, ih]
      omega

theorem breed_children_length (n : ℕ) (pop : List Genome) (sel : List ℕ)
    (rate sigma : ℚ) (cutu : ℕ → ℕ) (mr : ℕ → ℕ → ℚ × ℚ) :
    (GA.breed_children n pop sel rate sigma cutu mr).length = 2 * (n / 2) := by
  have h := length_flatMap_pairs (List.range (n / 2))
    (fun j => Mutation.gaussian_mutate
      (Crossover.single_point (pop.getD (sel.getD (2 * j) 0) [])
        (pop.getD (sel.getD (2 * j + 1) 0) []) (cutu j)).1 rate (mr (2 * j)) sigma)
    (fun j => Mutation.gaussian_mutate
      (Crossover.single_point (pop.getD (sel.getD (2 * j) 0) [])
        (pop.getD (sel.getD (2 * j + 1) 0) []) (cutu j)).2 rate (mr (2 * j + 1)) sigma)
  rw [List.length_range] at h
  exact h

end BreedingLemmas

/-- C4: the committed next population has exactly `n` genomes (`n` standing
for `c.POPULATION`, positive in any run): the pairwise loop
`for i in range(0, n - 1, 2)` runs `n / 2` times and contributes two children
per iteration, so for even `n` it alone produces `n` children, and for odd
`n` it produces `n - 1` and the final selected parent
`population[selected_indices[-1]]` is appended unmutated; the elitism write
`children[0] = ...` and the shuffle preserve the count. -/
theorem next_generation_population_size (n : ℕ) (pop : List Genome)
    (sel : List ℕ) (best : Genome) (rate sigma : ℚ) (cutu : ℕ → ℕ)
    (mr : ℕ → ℕ → ℚ × ℚ) (shuffle : List Genome → List Genome)
    (hs : ∀ l, (shuffle l).Perm l) (hn : 0 < n) :
    (GA.next_generation n pop sel best rate sigma cutu mr shuffle).length = n ∧
    (n % 2 = 0 → (GA.breed_children n pop sel rate sigma cutu mr).length = n) ∧
    (n % 2 = 1 → (GA.breed_children n pop sel rate sigma cutu mr).length = n - 1) := by
  have hb := breed_children_length n pop sel rate sigma cutu mr
  refine ⟨?_, fun he => by omega, fun ho => by omega⟩
  simp only [GA.next_generation]
  rw [(hs _).length_eq, List.length_set, List.length_append, hb]
  by_cases hpar : n % 2 = 1 <;> simp [hpar] <;> omega

/-- Witness for C4 at `n = 3` (odd case), a three-genome population, identity
shuffle. -/
theorem next_generation_population_size_witness :
    (∀ l : List Genome, (id l).Perm l) ∧ 0 < 3 ∧
    ((GA.next_generation 3 [[12], [14], [16]] [0, 1, 2] [12] (1/2) 4
        (fun _ => 0) (fun _ _ => (1, 0)) id).length = 3 ∧
      (3 % 2 = 0 → (GA.breed_children 3 [[12], [14], [16]] [0, 1, 2] (1/2) 4
        (fun _ => 0) (fun _ _ => (1, 0))).length = 3) ∧
      (3 % 2 = 1 → (GA.breed_children 3 [[12], [14], [16]] [0, 1, 2] (1/2) 4
        (fun _ => 0) (fun _ _ => (1, 0))).length = 3 - 1)) :=
  ⟨fun l => List.Perm.refl l, by decide,
    next_generation_population_size 3 [[12], [14], [16]] [0, 1, 2] [12] (1/2) 4
      (fun _ => 0) (fun _ _ => (1, 0)) id (fun l => List.Perm.refl l) (by decide)⟩

/-- C3: elitism — the generation's best genome is a member of the committed
next population.  Slot 0 of the child list is overwritten with (a copy of)
the best genome after breeding (src/genetic_algorithm.py line 159) and the
subsequent `random.shuffle` (modelled by any permutation) only reorders, so
a verbatim copy of the best genome survives, unmutated though not at a fixed
index, into the next generation. -/
theorem next_generation_contains_best (n : ℕ) (pop : List Genome)
    (sel : List ℕ) (best : Genome) (rate sigma : ℚ) (cutu : ℕ → ℕ)
    (mr : ℕ → ℕ → ℚ × ℚ) (shuffle : List Genome → List Genome)
    (hs : ∀ l, (shuffle l).Perm l) (hn : 0 < n) :
    best ∈ GA.next_generation n pop sel best rate sigma cutu mr shuffle := by
  simp only [GA.next_generation]
  rw [List.Perm.mem_iff (hs _)]
  have hlen : 0 < (GA.breed_children n pop sel rate sigma cutu mr ++
      (if n % 2 = 1 then [pop.getD (sel.getLastD 0) []] else [])).length := by
    rw [List.length_append, breed_children_length]
    by_cases hpar : n % 2 = 1 <;> (simp [hpar]; try omega)
  obtain ⟨c, t, hct⟩ :=
    List.exists_cons_of_ne_nil (List.ne_nil_of_length_pos hlen)
  rw [hct]
  simp [List.set]

/-- Witness for C3 at the same concrete generation as the C4 witness. -/
theorem next_generation_contains_best_witness :
    (∀ l : List Genome, (id l).Perm l) ∧ 0 < 3 ∧
    ([12] : Genome) ∈ GA.next_generation 3 [[12], [14], [16]] [0, 1, 2] [12]
      (1/2) 4 (fun _ => 0) (fun _ _ => (1, 0)) id :=
  ⟨fun l => List.Perm.refl l, by decide,
    next_generation_contains_best 3 [[12], [14], [16]] [0, 1, 2] [12] (1/2) 4
      (fun _ => 0) (fun _ _ => (1, 0)) id (fun l => List.Perm.refl l) (by decide)⟩

section TournamentLemmas

theorem getD_eq_getElem_of_lt {α : Type} (l : List α) (d : α) (n : ℕ)
    (h : n < l.length) : l.getD n d = l[n] := by
  rw [List.getD_eq_getElem?_getD, List.getElem?_eq_getElem h]
  rfl

theorem pyFoldMin_le_init (xs : List ℚ) :
    ∀ m : ℚ, xs.foldl (fun m y => if y < m then y else m) m ≤ m := by
  induction xs with
  | nil => intro m; simp
  | cons x xs ih =>
      intro m
      simp only [List.foldl_cons]
      refine le_trans (ih _) ?_
      split
      · exact le_of_lt (by assumption)
      · exact le_refl m

theorem pyFoldMin_le_mem (xs : List ℚ) :
    ∀ (m y : ℚ), y ∈ xs → xs.foldl (fun m y => if y < m then y else m) m ≤ y := by
  induction xs with
  | nil => intro m y hy; cases hy
  | cons x xs ih =>
      intro m y hy
      simp only [List.foldl_cons]
      rcases List.mem_cons.mp hy with h | h
      · subst h
        refine le_trans (pyFoldMin_le_init xs _) ?_
        split
        · exact le_refl y
        · exact le_of_not_lt (by assumption)
      · exact ih _ y h

theorem pyFoldMin_mem_or (xs : List ℚ) :
    ∀ m : ℚ, xs.foldl (fun m y => if y < m then y else m) m = m ∨
      xs.foldl (fun m y => if y < m then y else m) m ∈ xs := by
  induction xs with
  | nil => intro m; left; rfl
  | cons x xs ih =>
      intro m
      simp only [List.foldl_cons]
      rcases ih (if x < m then x else m) with h | h
      · rw [h]
        split
        · right; exact List.mem_cons_self x xs
        · left; rfl
      · right; exact List.mem_cons_of_mem x h

theorem pyListMin_mem (l : List ℚ) (h : l ≠ []) : pyListMin l ∈ l := by
  cases l with
  | nil => exact absurd rfl h
  | cons x xs =>
      show xs.foldl (fun m y => if y < m then y else m) x ∈ x :: xs
      rcases pyFoldMin_mem_or xs x with h1 | h1
      · rw [h1]; exact List.mem_cons_self x xs
      · exact List.mem_cons_of_mem x h1

theorem pyListMin_le (l : List ℚ) (y : ℚ) (hy : y ∈ l) : pyListMin l ≤ y := by
  cases l with
  | nil => cases hy
  | cons x xs =>
      show xs.foldl (fun m y => if y < m then y else m) x ≤ y
      rcases List.mem_cons.mp hy with h | h
      · subst h; exact pyFoldMin_le_init xs y
      · exact pyFoldMin_le_mem xs x y h

theorem getD_map_getD (fits : List ℚ) (t : List ℕ) (q : ℕ) (hq : q < t.length) :
    (t.map fun i => fits.getD i 0).getD q 0 = fits.getD (t.getD q 0) 0 := by
  rw [getD_eq_getElem_of_lt _ 0 q (by simpa using hq),
    getD_eq_getElem_of_lt t 0 q hq]
  exact List.getElem_map _

theorem tournament_winner_spec (fits : List ℚ) (t : List ℕ) (hne : t ≠ []) :
    ∃ p : ℕ, p < t.length ∧ GA.tournament_winner fits t = t.getD p 0 ∧
      fits.getD (t.getD p 0) 0 = pyListMin (t.map fun i => fits.getD i 0) ∧
      ∀ q, q < p →
        pyListMin (t.map fun i => fits.getD i 0) < fits.getD (t.getD q 0) 0 := by
  have htf_ne : (t.map fun i => fits.getD i 0) ≠ [] := by
    simpa using hne
  have hm : pyListMin (t.map fun i => fits.getD i 0) ∈ t.map fun i => fits.getD i 0 :=
    pyListMin_mem _ htf_ne
  have hidx : (t.map fun i => fits.getD i 0).indexOf
      (pyListMin (t.map fun i => fits.getD i 0)) <
      (t.map fun i => fits.getD i 0).length :=
    List.indexOf_lt_length.mpr hm
  have hlen : (t.map fun i => fits.getD i 0).length = t.length := List.length_map _ _
  refine ⟨(t.map fun i => fits.getD i 0).indexOf
    (pyListMin (t.map fun i => fits.getD i 0)), by omega, rfl, ?_, ?_⟩
  · rw [← getD_map_getD fits t _ (by omega), getD_eq_getElem_of_lt _ 0 _ hidx]
    have h3 := List.indexOf_get hidx
    rw [List.get_eq_getElem] at h3
    exact h3
  · intro q hq
    have hqtf : q < (t.map fun i => fits.getD i 0).length := by omega
    rw [← getD_map_getD fits t q (by omega), getD_eq_getElem_of_lt _ 0 q hqtf]
    have hle : pyListMin (t.map fun i => fits.getD i 0) ≤
        (t.map fun i => fits.getD i 0)[q] :=
      pyListMin_le _ _ (List.getElem_mem hqtf)
    have hneq : (t.map fun i => fits.getD i 0)[q] ≠
        pyListMin (t.map fun i => fits.getD i 0) := by
      have := @List.not_of_lt_findIdx ℚ
        (· == pyListMin (t.map fun i => fits.getD i 0))
        (t.map fun i => fits.getD i 0) q hq
      simpa using this
    exact lt_of_le_of_ne hle (fun hcontra => hneq hcontra.symm)

theorem tournament_winner_mem (fits : List ℚ) (t : List ℕ) (hne : t ≠ []) :
    GA.tournament_winner fits t ∈ t := by
  obtain ⟨p, hp, hw, -, -⟩ := tournament_winner_spec fits t hne
  rw [hw, getD_eq_getElem_of_lt t 0 p hp]
  exact List.getElem_mem hp

theorem tournament_winner_min (fits : List ℚ) (t : List ℕ) (hne : t ≠ []) :
    ∀ j ∈ t, fits.getD (GA.tournament_winner fits t) 0 ≤ fits.getD j 0 := by
  intro j hj
  obtain ⟨p, hp, hw, hmin, -⟩ := tournament_winner_spec fits t hne
  rw [hw, hmin]
  refine pyListMin_le _ _ ?_
  exact List.mem_map_of_mem _ hj

end TournamentLemmas

/-- C6: one tournament draw over the sampled index list `t` (the
`random.sample` result — the sampling contract, `TOURNAMENT_SIZE` distinct
indices uniformly drawn from `[0, len(fitnesses))`, enters as the hypotheses
on `t`): the winner is a sampled index; it is a valid index into the fitness
vector; its fitness is minimal among the sample; it is the FIRST sampled
index attaining the minimum (every earlier sampled index has strictly larger
fitness); a strictly-unique minimum in the sample always wins; and every
index returned by a full `tournament_selection` over valid nonempty draws is
a valid index.  The embedding is a pure function, so the input vector is
never mutated. -/
theorem tournament_selection_sound (fitnesses : List ℚ) (t : List ℕ)
    (hne : t ≠ []) (hvalid : ∀ i ∈ t, i < fitnesses.length) :
    GA.tournament_winner fitnesses t ∈ t ∧
    GA.tournament_winner fitnesses t < fitnesses.length ∧
    (∀ j ∈ t, fitnesses.getD (GA.tournament_winner fitnesses t) 0 ≤
      fitnesses.getD j 0) ∧
    (∃ p, p < t.length ∧ GA.tournament_winner fitnesses t = t.getD p 0 ∧
      ∀ q, q < p → fitnesses.getD (GA.tournament_winner fitnesses t) 0 <
        fitnesses.getD (t.getD q 0) 0) ∧
    (∀ i ∈ t, (∀ j ∈ t, j ≠ i → fitnesses.getD i 0 < fitnesses.getD j 0) →
      GA.tournament_winner fitnesses t = i) ∧
    (∀ draws : ℕ → List ℕ,
      (∀ k, draws k ≠ [] ∧ ∀ i ∈ draws k, i < fitnesses.length) →
      ∀ w ∈ GA.tournament_selection fitnesses draws, w < fitnesses.length) := by
  have hmem := tournament_winner_mem fitnesses t hne
  have hmin := tournament_winner_min fitnesses t hne
  refine ⟨hmem, hvalid _ hmem, hmin, ?_, ?_, ?_⟩
  · obtain ⟨p, hp, hw, hminv, hfirst⟩ := tournament_winner_spec fitnesses t hne
    refine ⟨p, hp, hw, fun q hq => ?_⟩
    rw [hw, hminv]
    exact hfirst q hq
  · intro i hi hstrict
    by_contra hneq
    have h1 : fitnesses.getD i 0 < fitnesses.getD (GA.tournament_winner fitnesses t) 0 :=
      hstrict _ hmem hneq
    exact absurd h1 (not_lt.mpr (hmin i hi))
  · intro draws hd w hw
    unfold GA.tournament_selection at hw
    rcases List.mem_map.mp hw with ⟨k, -, hk⟩
    subst hk
    exact (hd k).2 _ (tournament_winner_mem fitnesses (draws k) (hd k).1)

/-- Witness for C6 at `fitnesses = [3, 1, 2]` and sample `t = [0, 2]`. -/
theorem tournament_selection_sound_witness :
    (([0, 2] : List ℕ) ≠ [] ∧ (∀ i ∈ ([0, 2] : List ℕ), i < ([3, 1, 2] : List ℚ).length)) ∧
    (GA.tournament_winner [3, 1, 2] [0, 2] ∈ ([0, 2] : List ℕ) ∧
    GA.tournament_winner [3, 1, 2] [0, 2] < ([3, 1, 2] : List ℚ).length ∧
    (∀ j ∈ ([0, 2] : List ℕ),
      ([3, 1, 2] : List ℚ).getD (GA.tournament_winner [3, 1, 2] [0, 2]) 0 ≤
        ([3, 1, 2] : List ℚ).getD j 0) ∧
    (∃ p, p < ([0, 2] : List ℕ).length ∧
      GA.tournament_winner [3, 1, 2] [0, 2] = ([0, 2] : List ℕ).getD p 0 ∧
      ∀ q, q < p → ([3, 1, 2] : List ℚ).getD (GA.tournament_winner [3, 1, 2] [0, 2]) 0 <
        ([3, 1, 2] : List ℚ).getD (([0, 2] : List ℕ).getD q 0) 0) ∧
    (∀ i ∈ ([0, 2] : List ℕ),
      (∀ j ∈ ([0, 2] : List ℕ), j ≠ i →
        ([3, 1, 2] : List ℚ).getD i 0 < ([3, 1, 2] : List ℚ).getD j 0) →
      GA.tournament_winner [3, 1, 2] [0, 2] = i) ∧
    (∀ draws : ℕ → List ℕ,
      (∀ k, draws k ≠ [] ∧ ∀ i ∈ draws k, i < ([3, 1, 2] : List ℚ).length) →
      ∀ w ∈ GA.tournament_selection [3, 1, 2] draws, w < ([3, 1, 2] : List ℚ).length)) :=
  ⟨⟨by decide, by decide⟩,
    tournament_selection_sound [3, 1, 2] [0, 2] (by decide) (by decide)⟩

theorem pyClamp_mem (lo hi v : ℤ) (h : lo ≤ hi) :
    lo ≤ pyClamp lo hi v ∧ pyClamp lo hi v ≤ hi := by
  unfold pyClamp
  exact ⟨le_max_left lo _, max_le h (min_le_left hi v)⟩

/-- C1 (counterexample): `gaussian_mutate` clamps to the HARDCODED bounds
`[10, 30]` of src/mutation.py line 12, not to
`[MIN_GREEN, MAX_GREEN] = [10, 60]`, and truncates `int(value + gauss)`
rather than adding a rounded perturbation.  On the genome `[10, 50]` with
rate 1 (every element mutates), Gaussian draws `1.5` at position 0 and `8`
at position 1, the code returns `[11, 30]`: position 0 is `11`, neither
unchanged (`10`) nor `clamp(10 + round(1.5)) = 12`; position 1 is `30`,
neither unchanged (`50`) nor `clamp(50 + round(8)) = 58`. -/
theorem gaussian_mutate_hardcoded_clamp :
    Mutation.gaussian_mutate [10, 50] 1
      (fun n => if n = 0 then (0, 3/2) else (0, 8)) 4 = [11, 30] ∧
    ¬ ((11 : ℤ) = 10 ∨
      (11 : ℤ) = pyClamp Config.MIN_GREEN Config.MAX_GREEN (10 + round ((3 : ℚ)/2))) ∧
    ¬ ((30 : ℤ) = 50 ∨
      (30 : ℤ) = pyClamp Config.MIN_GREEN Config.MAX_GREEN (50 + round ((8 : ℚ)))) := by
  refine ⟨?_, ?_, ?_⟩
  · norm_num [Mutation.gaussian_mutate, List.mapIdx, List.mapIdx.go, pyInt, pyClamp]
  · norm_num [pyClamp, Config.MIN_GREEN, Config.MAX_GREEN, round_eq]
  · norm_num [pyClamp, Config.MIN_GREEN, Config.MAX_GREEN, round_eq]

/-- C1 (amended): every element of the genome returned by `gaussian_mutate`
either is the corresponding input element copied unchanged (when not selected
for mutation) or equals `max(10, min(30, int(value + gauss)))` — the
truncated perturbed value clamped to the hardcoded `[10, 30]`; consequently,
whenever every input element lies in `[MIN_GREEN, MAX_GREEN] = [10, 60]`,
every element of the returned genome lies in `[MIN_GREEN, MAX_GREEN]` (the
mutated ones land in the tighter `[10, 30]`). -/
theorem gaussian_mutate_elementwise (gene : Genome) (rate : ℚ) (r : ℕ → ℚ × ℚ)
    (sigma : ℚ)
    (hb : ∀ x ∈ gene, Config.MIN_GREEN ≤ x ∧ x ≤ Config.MAX_GREEN) :
    (Mutation.gaussian_mutate gene rate r sigma).length = gene.length ∧
    (∀ i, i < gene.length →
      (Mutation.gaussian_mutate gene rate r sigma).getD i 0 = gene.getD i 0 ∨
      (Mutation.gaussian_mutate gene rate r sigma).getD i 0 =
        pyClamp 10 30 (pyInt ((gene.getD i 0 : ℚ) + (r i).2))) ∧
    ∀ y ∈ Mutation.gaussian_mutate gene rate r sigma,
      Config.MIN_GREEN ≤ y ∧ y ≤ Config.MAX_GREEN := by
  refine ⟨by simp [Mutation.gaussian_mutate], ?_, ?_⟩
  · intro i hi
    have hlen : i < (Mutation.gaussian_mutate gene rate r sigma).length := by
      simpa [Mutation.gaussian_mutate] using hi
    rw [getD_eq_getElem_of_lt _ 0 i hlen, getD_eq_getElem_of_lt gene 0 i hi]
    simp only [Mutation.gaussian_mutate, List.getElem_mapIdx]
    split
    · right; rfl
    · left; rfl
  · intro y hy
    rw [List.mem_iff_getElem] at hy
    obtain ⟨i, hi, hyv⟩ := hy
    simp only [Mutation.gaussian_mutate, List.length_mapIdx] at hi
    simp only [Mutation.gaussian_mutate, List.getElem_mapIdx] at hyv
    subst hyv
    split
    · have := pyClamp_mem 10 30 (pyInt ((gene[i] : ℚ) + (r i).2)) (by omega)
      simp only [Config.MIN_GREEN, Config.MAX_GREEN]
      omega
    · exact hb _ (List.getElem_mem _)

/-- Witness for C1's amended theorem at `gene = [15]`, rate `1/2`, uniform
draw 0 (mutate) and Gaussian draw `2`. -/
theorem gaussian_mutate_elementwise_witness :
    (∀ x ∈ ([15] : Genome), Config.MIN_GREEN ≤ x ∧ x ≤ Config.MAX_GREEN) ∧
    ((Mutation.gaussian_mutate [15] (1/2) (fun _ => (0, 2)) 4).length =
      ([15] : Genome).length ∧
    (∀ i, i < ([15] : Genome).length →
      (Mutation.gaussian_mutate [15] (1/2) (fun _ => (0, 2)) 4).getD i 0 =
        ([15] : Genome).getD i 0 ∨
      (Mutation.gaussian_mutate [15] (1/2) (fun _ => (0, 2)) 4).getD i 0 =
        pyClamp 10 30 (pyInt ((([15] : Genome).getD i 0 : ℚ) + ((fun (_ : ℕ) => ((0 : ℚ), (2 : ℚ))) i).2))) ∧
    ∀ y ∈ Mutation.gaussian_mutate [15] (1/2) (fun _ => (0, 2)) 4,
      Config.MIN_GREEN ≤ y ∧ y ≤ Config.MAX_GREEN) :=
  ⟨by decide, gaussian_mutate_elementwise [15] (1/2) (fun _ => (0, 2)) 4 (by decide)⟩

section InitPopulationLemmas

theorem variation_gene_bounds (base : Genome) (v : ℕ → ℚ) :
    ∀ x ∈ GA.variation_gene base v,
      Config.MIN_GREEN ≤ x ∧ x ≤ Config.MAX_GREEN := by
  intro x hx
  rw [List.mem_iff_getElem] at hx
  obtain ⟨i, hi, hxe⟩ := hx
  simp only [GA.variation_gene, List.getElem_mapIdx] at hxe
  subst hxe
  exact pyClamp_mem _ _ _ (by decide)

theorem random_gene_length (u : ℕ → ℕ) :
    (GA.random_gene u).length = Config.NUM_SIGNALS := by
  simp [GA.random_gene]

theorem random_gene_bounds (u : ℕ → ℕ) :
    ∀ x ∈ GA.random_gene u, Config.MIN_GREEN ≤ x ∧ x ≤ Config.MAX_GREEN := by
  intro x hx
  simp only [GA.random_gene, List.mem_map] at hx
  obtain ⟨i, -, hxe⟩ := hx
  subst hxe
  exact pyRandint_mem _ _ _ (by decide)

theorem init_attempts_append (base : Genome) (var : ℕ → ℕ → ℚ) :
    ∀ (fuel : ℕ) (pop gen : List Genome),
      ∃ t, GA.init_attempts base var fuel pop gen = pop ++ t := by
  intro fuel
  induction fuel with
  | zero => intro pop gen; exact ⟨[], (List.append_nil pop).symm⟩
  | succ f ih =>
      intro pop gen
      simp only [GA.init_attempts]
      by_cases hlt : pop.length < Config.POPULATION
      · rw [if_pos hlt]
        by_cases hdup : GA.variation_gene base (var f) ∈ gen
        · rw [if_pos hdup]; exact ih pop gen
        · rw [if_neg hdup]
          obtain ⟨t, ht⟩ := ih (pop ++ [GA.variation_gene base (var f)])
            (gen ++ [GA.variation_gene base (var f)])
          exact ⟨[GA.variation_gene base (var f)] ++ t, by rw [ht, List.append_assoc]⟩
      · rw [if_neg hlt]; exact ⟨[], (List.append_nil pop).symm⟩

theorem init_attempts_length_le (base : Genome) (var : ℕ → ℕ → ℚ) :
    ∀ (fuel : ℕ) (pop gen : List Genome), pop.length ≤ Config.POPULATION →
      (GA.init_attempts base var fuel pop gen).length ≤ Config.POPULATION := by
  intro fuel
  induction fuel with
  | zero => intro pop gen h; exact h
  | succ f ih =>
      intro pop gen h
      simp only [GA.init_attempts]
      by_cases hlt : pop.length < Config.POPULATION
      · rw [if_pos hlt]
        by_cases hdup : GA.variation_gene base (var f) ∈ gen
        · rw [if_pos hdup]; exact ih pop gen h
        · rw [if_neg hdup]
          refine ih _ _ ?_
          rw [List.length_append, List.length_singleton]
          omega
      · rw [if_neg hlt]; exact h

theorem init_attempts_bounds (base : Genome) (var : ℕ → ℕ → ℚ) :
    ∀ (fuel : ℕ) (pop gen : List Genome),
      (∀ g ∈ pop, ∀ x ∈ g, Config.MIN_GREEN ≤ x ∧ x ≤ Config.MAX_GREEN) →
      ∀ g ∈ GA.init_attempts base var fuel pop gen,
        ∀ x ∈ g, Config.MIN_GREEN ≤ x ∧ x ≤ Config.MAX_GREEN := by
  intro fuel
  induction fuel with
  | zero => intro pop gen h; exact h
  | succ f ih =>
      intro pop gen h
      simp only [GA.init_attempts]
      by_cases hlt : pop.length < Config.POPULATION
      · rw [if_pos hlt]
        by_cases hdup : GA.variation_gene base (var f) ∈ gen
        · rw [if_pos hdup]; exact ih pop gen h
        · rw [if_neg hdup]
          refine ih _ _ ?_
          intro g hg
          rcases List.mem_append.mp hg with h1 | h1
          · exact h g h1
          · rw [List.mem_singleton] at h1
            subst h1
            exact variation_gene_bounds base (var f)
      · rw [if_neg hlt]; exact h

theorem init_attempts_nil_base (var : ℕ → ℕ → ℚ) :
    ∀ (fuel : ℕ) (pop gen : List Genome), ([] : Genome) ∈ gen →
      GA.init_attempts [] var fuel pop gen = pop := by
  intro fuel
  induction fuel with
  | zero => intro pop gen _; rfl
  | succ f ih =>
      intro pop gen hmem
      simp only [GA.init_attempts]
      have hg : GA.variation_gene [] (var f) = [] := by simp [GA.variation_gene]
      rw [hg]
      by_cases hlt : pop.length < Config.POPULATION
      · rw [if_pos hlt, if_pos hmem]
        exact ih pop gen hmem
      · rw [if_neg hlt]

theorem fill_random_append (u : ℕ → ℕ → ℕ) :
    ∀ (fuel : ℕ) (pop : List Genome),
      ∃ t, GA.fill_random u fuel pop = pop ++ t := by
  intro fuel
  induction fuel with
  | zero => intro pop; exact ⟨[], (List.append_nil pop).symm⟩
  | succ f ih =>
      intro pop
      simp only [GA.fill_random]
      by_cases hlt : pop.length < Config.POPULATION
      · rw [if_pos hlt]
        obtain ⟨t, ht⟩ := ih (pop ++ [GA.random_gene (u f)])
        exact ⟨[GA.random_gene (u f)] ++ t, by rw [ht, List.append_assoc]⟩
      · rw [if_neg hlt]; exact ⟨[], (List.append_nil pop).symm⟩

theorem fill_random_length (u : ℕ → ℕ → ℕ) :
    ∀ (fuel : ℕ) (pop : List Genome), pop.length ≤ Config.POPULATION →
      Config.POPULATION ≤ pop.length + fuel →
      (GA.fill_random u fuel pop).length = Config.POPULATION := by
  intro fuel
  induction fuel with
  | zero => intro pop h1 h2; simp only [GA.fill_random]; omega
  | succ f ih =>
      intro pop h1 h2
      simp only [GA.fill_random]
      by_cases hlt : pop.length < Config.POPULATION
      · rw [if_pos hlt]
        refine ih _ ?_ ?_ <;> rw [List.length_append, List.length_singleton] <;> omega
      · rw [if_neg hlt]; omega

theorem fill_random_bounds (u : ℕ → ℕ → ℕ) :
    ∀ (fuel : ℕ) (pop : List Genome),
      (∀ g ∈ pop, ∀ x ∈ g, Config.MIN_GREEN ≤ x ∧ x ≤ Config.MAX_GREEN) →
      ∀ g ∈ GA.fill_random u fuel pop,
        ∀ x ∈ g, Config.MIN_GREEN ≤ x ∧ x ≤ Config.MAX_GREEN := by
  intro fuel
  induction fuel with
  | zero => intro pop h; exact h
  | succ f ih =>
      intro pop h
      simp only [GA.fill_random]
      by_cases hlt : pop.length < Config.POPULATION
      · rw [if_pos hlt]
        refine ih _ ?_
        intro g hg
        rcases List.mem_append.mp hg with h1 | h1
        · exact h g h1
        · rw [List.mem_singleton] at h1
          subst h1
          exact random_gene_bounds (u f)
      · rw [if_neg hlt]; exact h

end InitPopulationLemmas

/-- C5 (counterexample): the seed genome is included in the initial
population unmutated even when it is out of bounds, so "all elements lie in
`[MIN_GREEN, MAX_GREEN]`" fails for every out-of-bounds seed.  With seed
`[100]`, the returned population contains `[100]` itself, whose element
`100` exceeds `MAX_GREEN = 60`. -/
theorem create_initial_population_out_of_bounds_seed :
    ([100] : Genome) ∈
      GA.create_initial_population [100] (fun _ _ => 1) (fun _ _ => 0) ∧
    ¬ ((100 : ℤ) ≤ Config.MAX_GREEN) := by
  refine ⟨?_, by decide⟩
  unfold GA.create_initial_population
  obtain ⟨t1, ht1⟩ := init_attempts_append [100] (fun _ _ => 1)
    Config.MAX_INIT_ATTEMPTS [[100]] [[100]]
  obtain ⟨t2, ht2⟩ := fill_random_append (fun _ _ => 0) Config.POPULATION
    (GA.init_attempts [100] (fun _ _ => 1) Config.MAX_INIT_ATTEMPTS [[100]] [[100]])
  rw [ht2, ht1]
  simp

/-- C5 (amended): for every seed genome, `create_initial_population` returns
a population whose first member is the seed genome unmutated, which contains
exactly `POPULATION` genomes, and which is produced without signaling any
error (the duplicate-avoidance loop is fuel-bounded by `MAX_INIT_ATTEMPTS`
and the random-fill fallback always completes the population, so the
function is total); all elements of all its genomes lie in
`[MIN_GREEN, MAX_GREEN]` PROVIDED the seed's elements do — the seed itself
is not clamped, so the all-in-bounds guarantee needs that hypothesis. -/
theorem create_initial_population_spec (base_gene : Genome)
    (var : ℕ → ℕ → ℚ) (u : ℕ → ℕ → ℕ)
    (hb : ∀ x ∈ base_gene, Config.MIN_GREEN ≤ x ∧ x ≤ Config.MAX_GREEN) :
    (GA.create_initial_population base_gene var u).head? = some base_gene ∧
    (GA.create_initial_population base_gene var u).length = Config.POPULATION ∧
    ∀ g ∈ GA.create_initial_population base_gene var u,
      ∀ x ∈ g, Config.MIN_GREEN ≤ x ∧ x ≤ Config.MAX_GREEN := by
  unfold GA.create_initial_population
  obtain ⟨t1, ht1⟩ := init_attempts_append base_gene var
    Config.MAX_INIT_ATTEMPTS [base_gene] [base_gene]
  obtain ⟨t2, ht2⟩ := fill_random_append u Config.POPULATION
    (GA.init_attempts base_gene var Config.MAX_INIT_ATTEMPTS [base_gene] [base_gene])
  refine ⟨?_, ?_, ?_⟩
  · rw [ht2, ht1]
    simp
  · refine fill_random_length u Config.POPULATION _ ?_ ?_
    · refine init_attempts_length_le base_gene var _ _ _ ?_
      simp [Config.POPULATION]
    · omega
  · refine fill_random_bounds u Config.POPULATION _ ?_
    refine init_attempts_bounds base_gene var _ _ _ ?_
    intro g hg
    rw [List.mem_singleton] at hg
    subst hg
    exact hb

/-- Witness for C5's amended theorem at the in-bounds seed `[15, 20]`. -/
theorem create_initial_population_spec_witness :
    (∀ x ∈ ([15, 20] : Genome), Config.MIN_GREEN ≤ x ∧ x ≤ Config.MAX_GREEN) ∧
    ((GA.create_initial_population [15, 20] (fun _ _ => 1) (fun _ _ => 0)).head? =
      some [15, 20] ∧
    (GA.create_initial_population [15, 20] (fun _ _ => 1) (fun _ _ => 0)).length =
      Config.POPULATION ∧
    ∀ g ∈ GA.create_initial_population [15, 20] (fun _ _ => 1) (fun _ _ => 0),
      ∀ x ∈ g, Config.MIN_GREEN ≤ x ∧ x ≤ Config.MAX_GREEN) :=
  ⟨by decide,
    create_initial_population_spec [15, 20] (fun _ _ => 1) (fun _ _ => 0) (by decide)⟩

/-- C10: every genome appended by `create_initial_population`'s random-fill
fallback has length `NUM_SIGNALS` regardless of the seed genome's length
(first conjunct: any member of `fill_random`'s result is either inherited
from the incoming population or has length `NUM_SIGNALS`); consequently, for
the seed `[]` (whose length `0` differs from `NUM_SIGNALS = 4`, and whose
variation candidates are all `[]` so the duplicate-avoidance loop never adds
anything), the returned population contains both the seed of length 0 and a
random-fill genome of length 4 — two different lengths. -/
theorem random_fill_gene_length_num_signals :
    (∀ (u : ℕ → ℕ → ℕ) (fuel : ℕ) (pop : List Genome) (g : Genome),
      g ∈ GA.fill_random u fuel pop →
      g ∈ pop ∨ g.length = Config.NUM_SIGNALS) ∧
    (([] : Genome).length ≠ Config.NUM_SIGNALS ∧
      ([] : Genome) ∈ GA.create_initial_population [] (fun _ _ => 1) (fun _ _ => 0) ∧
      ∃ g ∈ GA.create_initial_population [] (fun _ _ => 1) (fun _ _ => 0),
        g.length = Config.NUM_SIGNALS) := by
  constructor
  · intro u fuel
    induction fuel with
    | zero => intro pop g hg; exact Or.inl hg
    | succ f ih =>
        intro pop g hg
        simp only [GA.fill_random] at hg
        by_cases hlt : pop.length < Config.POPULATION
        · rw [if_pos hlt] at hg
          rcases ih _ _ hg with h1 | h1
          · rcases List.mem_append.mp h1 with h2 | h2
            · exact Or.inl h2
            · rw [List.mem_singleton] at h2
              subst h2
              exact Or.inr (random_gene_length _)
          · exact Or.inr h1
        · rw [if_neg hlt] at hg
          exact Or.inl hg
  · have hinit : GA.init_attempts [] (fun _ _ => 1) Config.MAX_INIT_ATTEMPTS
        [[]] [[]] = [[]] :=
      init_attempts_nil_base _ _ _ _ (by simp)
    have hcreate : GA.create_initial_population [] (fun _ _ => 1) (fun _ _ => 0) =
        GA.fill_random (fun _ _ => 0) Config.POPULATION [[]] := by
      unfold GA.create_initial_population
      rw [hinit]
    have hstep : GA.fill_random (fun _ _ => 0) Config.POPULATION [[]] =
        GA.fill_random (fun _ _ => 0) 19
          ([[]] ++ [GA.random_gene ((fun _ _ => 0) 19)]) := by
      show GA.fill_random (fun _ _ => 0) (19 + 1) [[]] = _
      simp only [GA.fill_random]
      rw [if_pos (by decide)]
    refine ⟨by decide, ?_, ?_⟩
    · rw [hcreate]
      obtain ⟨t, ht⟩ := fill_random_append (fun _ _ => 0) Config.POPULATION [[]]
      rw [ht]
      simp
    · refine ⟨GA.random_gene ((fun _ _ => 0) 19), ?_, random_gene_length _⟩
      rw [hcreate, hstep]
      obtain ⟨t, ht⟩ := fill_random_append (fun _ _ => 0) 19
        ([[]] ++ [GA.random_gene ((fun _ _ => 0) 19)])
      rw [ht]
      simp

/-- Witness for C10's universal conjunct: one fill step over the empty
population appends the length-4 genome `[10, 10, 10, 10]`. -/
theorem random_fill_gene_length_num_signals_witness :
    ([10, 10, 10, 10] : Genome) ∈ GA.fill_random (fun _ _ => 0) 1 [] ∧
    (([10, 10, 10, 10] : Genome) ∈ ([] : List Genome) ∨
      ([10, 10, 10, 10] : Genome).length = Config.NUM_SIGNALS) :=
  ⟨by decide,
    random_fill_gene_length_num_signals.1 (fun _ _ => 0) 1 [] [10, 10, 10, 10] (by decide)⟩
